import Mathlib

/-!
Verification of the cobalt WASM bytecode reader core.

The definitions below are a shallow embedding of the C++ sources:
the byte cursor and LEB128 codec of `WasmBytecodeReaderBase`
(`reader_base.h` / `bc/internal/values.h`), the type-section grammar
(`bc/internal/types.h`), the `Limit` type (`utility/concepts.h` includes
it alongside the type model), and the `SmallMultiArray` /
`MultiArrayBuilder` pair (`utility/multi_array.h`).

The cursor is a `List Nat` of the remaining bytes (each a value of a
`u8`, so below 256).  A C++ member function that mutates `remaining_`
and may throw `WasmBytecodeReadException` becomes a function from the
remaining-byte list to a pair of an `Except` result and the
remaining-byte list after the call; the distinct throw sites of the
C++ code are told apart by the constructors of `ReadError`, matching
their distinct message strings.
-/

namespace Cobalt

/-- The distinct failure sites of `WasmBytecodeReadException`.
`outOfBoundsAccess` does not correspond to any throw site: it marks the
(unreachable) case in which the embedded cursor would have had to read a
byte that is not there, which in the C++ code would be an out-of-bounds
`remaining_[0]` access. -/
inductive ReadError where
  | unexpectedEndOfInput
  | unexpectedByte (expected actual : Nat)
  | unknownTypeTag (byte : Nat)
  | invalidVarInt
  | outOfBoundsAccess
deriving DecidableEq, Repr

/-- `2^64`, the modulus of the C++ `u64` arithmetic. -/
def u64Mod : Nat := 18446744073709551616

/-- Embeds `cobalt::internal::LEB128ReaderResult` (reader_base.h):
the `(result, shift, last_byte)` triple shared by the unsigned and
signed LEB128 decoders. -/
structure LEB128ReaderResult where
  result : Nat
  shift : Nat
  last_byte : Nat
deriving DecidableEq, Repr

/-- Embeds `WasmBytecodeReaderBase::consume` (reader_base.h): if no
bytes remain, fail with the "unexpected end of module" error; otherwise
return `remaining_[0]` and advance the cursor by one.  The read of
`remaining_[0]` is embedded through `head?` so that an out-of-bounds
access would surface as the `outOfBoundsAccess` error instead of being
silently impossible. -/
def consume (s : List Nat) : Except ReadError Nat × List Nat :=
  if s.isEmpty then
    (.error .unexpectedEndOfInput, s)
  else
    match s.head? with
    | some curr => (.ok curr, s.drop 1)
    | none => (.error .outOfBoundsAccess, s)

/-- Embeds `WasmBytecodeReaderBase::expect` (reader_base.h): consume one
byte and fail with the "got unexpected byte" error if it differs from
`value`. -/
def expect (value : Nat) (s : List Nat) : Except ReadError Unit × List Nat :=
  match consume s with
  | (.ok got, s1) =>
    if got ≠ value then (.error (.unexpectedByte value got), s1) else (.ok (), s1)
  | (.error e, s1) => (.error e, s1)

/-- Embeds `WasmBytecodeReaderBase::consume_n<N>` (reader_base.h): a
loop of `N` single-byte `consume` calls filling a buffer in order.  A
thrown exception propagates with the cursor as the failing `consume`
left it. -/
def consume_n : Nat → List Nat → Except ReadError (List Nat) × List Nat
  | 0, s => (.ok [], s)
  | n + 1, s =>
    match consume s with
    | (.ok b, s1) =>
      match consume_n n s1 with
      | (.ok bs, s2) => (.ok (b :: bs), s2)
      | (.error e, s2) => (.error e, s2)
    | (.error e, s1) => (.error e, s1)

/-- Embeds the do-while loop of
`WasmBytecodeReaderBase::read_leb128_internal<N>` (bc/internal/values.h),
with the single-byte `consume` call inlined as the pattern match on the
byte list.  Each iteration ORs `(last_byte & 0x7F) << shift` (a `u64`
computation, hence the reduction modulo `2^64`) into the accumulator and
adds 7 to `shift`; the loop continues while the continuation bit `0x80`
of the byte is set and `shift < N`, and after the loop the decoder fails
with the "invalid LEB128 integer" error when the continuation bit is
still set (which by the loop condition means `shift ≥ N`). -/
def read_leb128_loop (N : Nat) : List Nat → Nat → Nat → Except ReadError LEB128ReaderResult × List Nat
  | [], _, _ => (.error .unexpectedEndOfInput, [])
  | b :: rest, result, shift =>
    let result' := result ||| (((b &&& 127) <<< shift) % u64Mod)
    let shift' := shift + 7
    if b &&& 128 ≠ 0 then
      if shift' < N then
        read_leb128_loop N rest result' shift'
      else
        (.error .invalidVarInt, rest)
    else
      (.ok ⟨result', shift', b⟩, rest)

/-- Embeds `WasmBytecodeReaderBase::read_leb128_internal<N>`: the loop
started with a zero accumulator and zero shift. -/
def read_leb128_internal (N : Nat) (s : List Nat) : Except ReadError LEB128ReaderResult × List Nat :=
  read_leb128_loop N s 0 0

/-- Embeds `WasmBytecodeReaderBase::read_leb128_unsigned<N>`: the
`result` field of the internal decode. -/
def read_leb128_unsigned (N : Nat) (s : List Nat) : Except ReadError Nat × List Nat :=
  match read_leb128_internal N s with
  | (.ok p, s1) => (.ok p.result, s1)
  | (.error e, s1) => (.error e, s1)

/-- `std::bit_cast<i64>` of a `u64` value: two's-complement
reinterpretation. -/
def toInt64 (x : Nat) : Int :=
  if x < 9223372036854775808 then (x : Int) else (x : Int) - 18446744073709551616

/-- Embeds `WasmBytecodeReaderBase::read_leb128_signed<N>`
(bc/internal/values.h): after the internal decode, if `shift < 64` and
the sign bit `0x40` of the last byte is set, OR `~0u64 << shift` (again
`u64` arithmetic) into the result, then bit-cast to `i64`. -/
def read_leb128_signed (N : Nat) (s : List Nat) : Except ReadError Int × List Nat :=
  match read_leb128_internal N s with
  | (.ok p, s1) =>
    let result :=
      if p.shift < 64 ∧ p.last_byte &&& 64 ≠ 0 then
        p.result ||| (((u64Mod - 1) <<< p.shift) % u64Mod)
      else
        p.result
    (.ok (toInt64 result), s1)
  | (.error e, s1) => (.error e, s1)

/-- Embeds `cobalt::ValueType` (utility/concepts.h).  The reference
constructor for 0x6F is named `extern_ref` in the source; it is spelled
`ext_ref` here. -/
inductive ValueType where
  | i32
  | i64
  | f32
  | f64
  | v128
  | func_ref
  | ext_ref
deriving DecidableEq, Repr

/-- Embeds `WasmBytecodeReaderBase::read_val_ty` (bc/internal/types.h):
read one byte (`read_byte` is a plain `consume`) and map the WASM tag
bytes to `ValueType`, failing with the "unknown type identifier" error
on any other byte. -/
def read_val_ty (s : List Nat) : Except ReadError ValueType × List Nat :=
  match consume s with
  | (.ok byte, s1) =>
    if byte = 0x6F then (.ok .ext_ref, s1)
    else if byte = 0x70 then (.ok .func_ref, s1)
    else if byte = 0x7B then (.ok .v128, s1)
    else if byte = 0x7C then (.ok .f64, s1)
    else if byte = 0x7D then (.ok .f32, s1)
    else if byte = 0x7E then (.ok .i64, s1)
    else if byte = 0x7F then (.ok .i32, s1)
    else (.error (.unknownTypeTag byte), s1)
  | (.error e, s1) => (.error e, s1)

/-- `2^32`, the modulus of the C++ `u32` arithmetic of the offset
array. -/
def u32Mod : Nat := 4294967296

/-- Embeds `cobalt::SmallMultiArray<T, N, SmallSize>`
(utility/multi_array.h): one backing sequence plus the array of `N`
exclusive end offsets (`indices_[i]` is the end of sub-array `i`).
`indices_` is a `std::array<u32, N>`, so every stored offset is a value
below `2^32`.  The `SmallSize` hint only affects allocation and is
dropped. -/
structure SmallMultiArray (T : Type) (N : Nat) where
  array : List T
  indices : List Nat

/-- Embeds `SmallMultiArray::sub_vec`: the span starting at
`indices_[i - 1]` (0 for `i = 0`) of length `indices_[i] - begin`, a
`u32` subtraction that wraps modulo `2^32` (for stored offsets, which
are below `2^32`, the wrap is `(indices_[i] + 2^32 - begin) % 2^32`).
A length that exceeds the backing sequence would make the C++ span
construction undefined; the embedding truncates at the end of the
backing sequence, the only total choice. -/
def SmallMultiArray.sub_vec {T : Type} {N : Nat} (m : SmallMultiArray T N) (i : Nat) : List T :=
  let b := if i = 0 then 0 else m.indices.getD (i - 1) 0
  let length := (m.indices.getD i 0 + u32Mod - b) % u32Mod
  (m.array.drop b).take length

/-- Embeds `cobalt::MultiArrayBuilder<T, N, SmallSize>`
(utility/multi_array.h): the growing backing sequence, the end-offset
array, and the index of the next sub-array to close. -/
structure MultiArrayBuilder (T : Type) (N : Nat) where
  underlying : List T
  indices : List Nat
  current_index : Nat

/-- A default-constructed `MultiArrayBuilder`: empty backing sequence,
`indices_ = {0}` (all offsets zero-initialized), `current_index_ = 0`. -/
def MultiArrayBuilder.empty (T : Type) (N : Nat) : MultiArrayBuilder T N :=
  ⟨[], List.replicate N 0, 0⟩

/-- Embeds `MultiArrayBuilder::push`: append to the backing sequence. -/
def MultiArrayBuilder.push {T : Type} {N : Nat} (b : MultiArrayBuilder T N) (value : T) :
    MultiArrayBuilder T N :=
  { b with underlying := b.underlying ++ [value] }

/-- Embeds `MultiArrayBuilder::end_sub_vec`: record the current backing
length as the end offset of the sub-array being closed, and advance
`current_index_`.  The assignment `indices_[...] = underlying_.size()`
stores a `size_t` into a `u32` slot, truncating modulo `2^32`. -/
def MultiArrayBuilder.end_sub_vec {T : Type} {N : Nat} (b : MultiArrayBuilder T N) :
    MultiArrayBuilder T N :=
  { b with
    indices := b.indices.set b.current_index (b.underlying.length % u32Mod)
    current_index := b.current_index + 1 }

/-- Embeds `MultiArrayBuilder::build`: move the backing sequence and the
offsets into a `SmallMultiArray`. -/
def MultiArrayBuilder.build {T : Type} {N : Nat} (b : MultiArrayBuilder T N) :
    SmallMultiArray T N :=
  ⟨b.underlying, b.indices⟩

/-- Embeds `cobalt::FunctionType` (utility/concepts.h): a 2-arity
`SmallMultiArray` of value types, sub-array 0 the parameters and
sub-array 1 the results. -/
structure FunctionType where
  vec : SmallMultiArray ValueType 2

/-- Embeds `FunctionType::param_tys`. -/
def FunctionType.param_tys (f : FunctionType) : List ValueType :=
  f.vec.sub_vec 0

/-- Embeds `FunctionType::result_tys`. -/
def FunctionType.result_tys (f : FunctionType) : List ValueType :=
  f.vec.sub_vec 1

/-- Modelled from the spec: the repository has no LEB128 encoder (its
tests drive the decoder from fixture files), so the round-trip property
needs one.  Per the glossary and section 4.2, an unsigned integer is
encoded as 7-bit groups, least-significant group first, each byte
carrying the continuation bit `0x80` except the last. -/
def leb128_encode_unsigned (v : Nat) : List Nat :=
  if v < 128 then
    [v]
  else
    (v % 128 + 128) :: leb128_encode_unsigned (v / 128)

/-- Modelled from the spec: the signed companion of
`leb128_encode_unsigned`.  Per section 4.2, the decoder recovers the
sign from bit `0x40` of the final byte, so the encoder emits 7-bit
groups of the two's-complement value (arithmetic shift, i.e. floor
division by 128) until the remaining quotient is 0 with a clear sign
bit, or -1 with a set sign bit. -/
def leb128_encode_signed (v : Int) : List Nat :=
  if (v / 128 = 0 ∧ (v % 128).toNat < 64) ∨ (v / 128 = -1 ∧ 64 ≤ (v % 128).toNat) then
    [(v % 128).toNat]
  else
    ((v % 128).toNat + 128) :: leb128_encode_signed (v / 128)
termination_by v.natAbs
decreasing_by omega

/-- Reads `k` value types in order, pushing each onto the builder; used
by the modelled `read_function_ty` below. -/
def read_val_tys (k : Nat) (b : MultiArrayBuilder ValueType 2) (s : List Nat) :
    Except ReadError (MultiArrayBuilder ValueType 2) × List Nat :=
  match k with
  | 0 => (.ok b, s)
  | k + 1 =>
    match read_val_ty s with
    | (.ok t, s1) => read_val_tys k (b.push t) s1
    | (.error e, s1) => (.error e, s1)

/-- Modelled from the spec: the source's `read_function_ty`
(bc/internal/types.h) contains only the `expect(0x60)` marker check and
is otherwise unimplemented.  Section 4.4 specifies the rest: after the
marker, read a parameter list and a result list (each a LEB128 length
followed by that many value types) into the two sub-arrays of a 2-arity
store, producing a `FunctionType`. -/
def read_function_ty (s : List Nat) : Except ReadError FunctionType × List Nat :=
  match expect 0x60 s with
  | (.ok _, s1) =>
    match read_leb128_unsigned 32 s1 with
    | (.ok np, s2) =>
      match read_val_tys np (MultiArrayBuilder.empty ValueType 2) s2 with
      | (.ok b1, s3) =>
        match read_leb128_unsigned 32 s3 with
        | (.ok nr, s4) =>
          match read_val_tys nr b1.end_sub_vec s4 with
          | (.ok b2, s5) => (.ok ⟨b2.end_sub_vec.build⟩, s5)
          | (.error e, s5) => (.error e, s5)
        | (.error e, s4) => (.error e, s4)
      | (.error e, s3) => (.error e, s3)
    | (.error e, s2) => (.error e, s2)
  | (.error e, s1) => (.error e, s1)

/-- Runs a `MultiArrayBuilder` through a partitioned push sequence: for
each part in order, push its elements left to right, then close the
sub-array with `end_sub_vec`. -/
def run_builder {T : Type} {N : Nat} (b : MultiArrayBuilder T N) :
    List (List T) → MultiArrayBuilder T N
  | [] => b
  | part :: parts => run_builder (List.foldl MultiArrayBuilder.push b part).end_sub_vec parts

/-- The store built from a partitioned push sequence starting from a
default-constructed builder. -/
def built_store (T : Type) (N : Nat) (parts : List (List T)) : SmallMultiArray T N :=
  (run_builder (MultiArrayBuilder.empty T N) parts).build

/-- The all-bits-set `u32` sentinel used by `Limit` for "no maximum". -/
def limitSentinel : Nat := 4294967295

/-- Embeds `cobalt::Limit` (utility/concepts.h): a `(min, max)` pair of
`u32` values. -/
structure Limit where
  min_ : Nat
  max_ : Nat
deriving DecidableEq, Repr

/-- Embeds `Limit::unbounded`: stores the sentinel as the maximum. -/
def Limit.unbounded (min : Nat) : Limit :=
  ⟨min, limitSentinel⟩

/-- Embeds `Limit::bounded`: stores the explicit maximum unchecked. -/
def Limit.bounded (min max : Nat) : Limit :=
  ⟨min, max⟩

/-- Embeds `Limit::min`. -/
def Limit.min (l : Limit) : Nat :=
  l.min_

/-- Embeds `Limit::max`: `none` exactly when the stored maximum equals
the sentinel. -/
def Limit.max (l : Limit) : Option Nat :=
  if l.max_ = limitSentinel then none else some l.max_

/-! Helper lemmas about the bit operations the decoder uses. -/

lemma u64Mod_eq : u64Mod = 2 ^ 64 := by norm_num [u64Mod]

lemma and_127_eq (b : Nat) : b &&& 127 = b % 128 := by
  have h := Nat.and_pow_two_sub_one_eq_mod b 7
  norm_num at h
  exact h

lemma and_128_eq (b : Nat) : b &&& 128 = b / 128 % 2 * 128 := by
  have h := Nat.and_two_pow b 7
  rw [Nat.testBit_to_div_mod] at h
  norm_num at h
  rcases Nat.mod_two_eq_zero_or_one (b / 128) with h2 | h2 <;> simp [h2] at h ⊢ <;> omega

lemma and_64_eq (b : Nat) : b &&& 64 = b / 64 % 2 * 64 := by
  have h := Nat.and_two_pow b 6
  rw [Nat.testBit_to_div_mod] at h
  norm_num at h
  rcases Nat.mod_two_eq_zero_or_one (b / 64) with h2 | h2 <;> simp [h2] at h ⊢ <;> omega

lemma or_mul_two_pow {a k : Nat} (g : Nat) (h : a < 2 ^ k) :
    a ||| g * 2 ^ k = a + g * 2 ^ k := by
  rw [Nat.mul_comm g, Nat.or_comm, ← Nat.mul_add_lt_is_or h g]
  omega

lemma neg_mask_eq {k : Nat} (hk : k < 64) :
    ((u64Mod - 1) <<< k) % u64Mod = u64Mod - 2 ^ k := by
  rw [Nat.shiftLeft_eq, u64Mod_eq]
  have h0 : (1:Nat) ≤ 2 ^ k := Nat.one_le_two_pow
  have h2 : (2:Nat) ^ k ≤ 2 ^ 64 := Nat.pow_le_pow_right (by norm_num) (by omega)
  have h64 : (1:Nat) ≤ 2 ^ 64 := Nat.one_le_two_pow
  have h1 : (2 ^ 64 - 1) * 2 ^ k = (2 ^ k - 1) * 2 ^ 64 + (2 ^ 64 - 2 ^ k) := by
    zify [h0, h2, h64]
    ring
  rw [h1, Nat.add_comm, Nat.add_mul_mod_self_right]
  exact Nat.mod_eq_of_lt (by omega)

/-! Claim C4: the byte cursor's single-byte consume. -/

/-- C4: `consume` fails with the unexpected-end-of-input error exactly
when no bytes remain; otherwise it returns the first remaining byte and
advances the cursor by one; and the out-of-bounds branch of the
embedding is unreachable. -/
theorem c4_consume_safety :
    ∀ s : List Nat,
      ((consume s).1 = .error .unexpectedEndOfInput ↔ s = []) ∧
      (∀ b rest, s = b :: rest → consume s = (.ok b, rest)) ∧
      (consume s).1 ≠ .error .outOfBoundsAccess := by
  intro s
  cases s with
  | nil => simp [consume]
  | cons b rest =>
    refine ⟨by simp [consume], ?_, by simp [consume]⟩
    intro b' rest' h
    cases h
    simp [consume]

/-- Witness for C4 at concrete cursors. -/
theorem c4_consume_safety_witness :
    consume [7, 9] = (.ok 7, [9]) ∧ (consume [] ).1 = .error .unexpectedEndOfInput :=
  ⟨(c4_consume_safety [7, 9]).2.1 7 [9] rfl, ((c4_consume_safety []).1).mpr rfl⟩

/-! Claim C5: consume_n on short input.  The C++ loop consumes bytes one
at a time, so when it runs out of input the cursor has already advanced
past every byte that was available: the failure is not atomic. -/

/-- C5 counterexample: with one byte remaining, `consume_n 2` fails with
the unexpected-end-of-input error but leaves the cursor advanced past
the byte that was available, not at its pre-call position. -/
theorem c5_consume_n_not_atomic :
    (consume_n 2 [5]).1 = .error .unexpectedEndOfInput ∧ (consume_n 2 [5]).2 ≠ [5] := by
  refine ⟨rfl, ?_⟩
  show ([] : List Nat) ≠ [5]
  simp

/-- C5 amended: for every cursor with fewer than `n` bytes remaining,
`consume_n n` fails with the unexpected-end-of-input error, but it does
so after consuming every remaining byte (the cursor is left empty, not
restored to its pre-call position); with at least `n` bytes remaining it
returns the first `n` bytes and advances by exactly `n`. -/
theorem c5_consume_n_behavior :
    ∀ (n : Nat) (s : List Nat),
      (s.length < n → consume_n n s = (.error .unexpectedEndOfInput, [])) ∧
      (n ≤ s.length → consume_n n s = (.ok (s.take n), s.drop n)) := by
  intro n
  induction n with
  | zero => intro s; exact ⟨by omega, fun _ => by simp [consume_n]⟩
  | succ n ih =>
    intro s
    cases s with
    | nil =>
      refine ⟨fun _ => ?_, by simp⟩
      simp [consume_n, consume]
    | cons b rest =>
      constructor
      · intro hlen
        have h := (ih rest).1 (by simpa using hlen)
        simp only [consume_n, consume, List.isEmpty_cons, Bool.false_eq_true, if_false,
          List.head?_cons, List.drop_succ_cons, List.drop_zero, h]
      · intro hlen
        have h := (ih rest).2 (by simpa using hlen)
        simp only [consume_n, consume, List.isEmpty_cons, Bool.false_eq_true, if_false,
          List.head?_cons, List.drop_succ_cons, List.drop_zero, h, List.take_succ_cons,
          List.drop_succ_cons]

/-- Witness for C5's amended theorem at a concrete short cursor. -/
theorem c5_consume_n_behavior_witness :
    consume_n 2 [5] = (.error .unexpectedEndOfInput, []) ∧
    consume_n 2 [5, 6, 7] = (.ok [5, 6], [7]) :=
  ⟨(c5_consume_n_behavior 2 [5]).1 (by norm_num),
   (c5_consume_n_behavior 2 [5, 6, 7]).2 (by norm_num)⟩

/-! Claim C6: the value-type reader. -/

/-- C6: `read_val_ty` consumes exactly one byte; it maps 0x7F to i32,
0x7E to i64, 0x7D to f32, 0x7C to f64, 0x7B to v128, 0x70 to func_ref
and 0x6F to extern_ref, and fails with the unknown-type-tag error on
every other byte value. -/
theorem c6_read_val_ty :
    (∀ rest : List Nat,
      read_val_ty (0x7F :: rest) = (.ok .i32, rest) ∧
      read_val_ty (0x7E :: rest) = (.ok .i64, rest) ∧
      read_val_ty (0x7D :: rest) = (.ok .f32, rest) ∧
      read_val_ty (0x7C :: rest) = (.ok .f64, rest) ∧
      read_val_ty (0x7B :: rest) = (.ok .v128, rest) ∧
      read_val_ty (0x70 :: rest) = (.ok .func_ref, rest) ∧
      read_val_ty (0x6F :: rest) = (.ok .ext_ref, rest)) ∧
    (∀ (b : Nat) (rest : List Nat), b < 256 →
      b ∉ ([0x6F, 0x70, 0x7B, 0x7C, 0x7D, 0x7E, 0x7F] : List Nat) →
      read_val_ty (b :: rest) = (.error (.unknownTypeTag b), rest)) := by
  constructor
  · intro rest
    refine ⟨?_, ?_, ?_, ?_, ?_, ?_, ?_⟩ <;> simp [read_val_ty, consume]
  · intro b rest _ hb
    simp only [List.mem_cons, List.not_mem_nil, or_false, not_or] at hb
    obtain ⟨h1, h2, h3, h4, h5, h6, h7⟩ := hb
    simp [read_val_ty, consume, h1, h2, h3, h4, h5, h6, h7]

/-- Witness for C6 at a concrete unknown tag byte. -/
theorem c6_read_val_ty_witness :
    read_val_ty [0, 9] = (.error (.unknownTypeTag 0), [9]) :=
  c6_read_val_ty.2 0 [9] (by norm_num) (by norm_num)

/-! Claim C8: the Limit sentinel.  `Limit::bounded` accepts every
explicit max unchecked, and `Limit::max` maps the stored sentinel to
`none`, so an explicit max equal to the sentinel is silently read back
as "no maximum". -/

/-- C8 counterexample: the explicit max `0xFFFFFFFF` is accepted by
`Limit.bounded`, but the resulting limit's `max()` observer returns
`none` rather than `some 0xFFFFFFFF` — it is indistinguishable from the
unbounded case. -/
theorem c8_sentinel_confused :
    (Limit.bounded 0 4294967295).max ≠ some 4294967295 ∧
    (Limit.bounded 0 4294967295).max = (Limit.unbounded 0).max := by
  constructor <;> simp [Limit.bounded, Limit.unbounded, Limit.max, limitSentinel]

/-- C8 amended: a bounded limit's `max()` returns `some m` for every
explicit max `m` other than the sentinel `0xFFFFFFFF`; an explicit max
equal to the sentinel is accepted unchecked and collapses to `none`,
exactly like an unbounded limit. -/
theorem c8_limit_max :
    (∀ mn m : Nat, m ≠ 4294967295 → (Limit.bounded mn m).max = some m) ∧
    (∀ mn : Nat, (Limit.bounded mn 4294967295).max = none) ∧
    (∀ mn : Nat, (Limit.unbounded mn).max = none) := by
  refine ⟨fun mn m hm => ?_, fun mn => ?_, fun mn => ?_⟩ <;>
    simp [Limit.bounded, Limit.unbounded, Limit.max, limitSentinel]
  exact hm

/-- Witness for C8's amended theorem at a concrete max. -/
theorem c8_limit_max_witness : (Limit.bounded 0 7).max = some 7 :=
  c8_limit_max.1 0 7 (by norm_num)

/-! Claim C1: termination and over-length detection of the LEB128 loop. -/

/-- The LEB128 loop stops exactly at the first byte at which either the
continuation bit is clear or the running shift has reached `N`; it fails
with the invalid-varint error exactly when the continuation bit of that
stopping byte is still set. -/
lemma leb_loop_stop (N : Nat) :
    ∀ (s : List Nat) (i result shift : Nat),
      i < s.length →
      (∀ j, j < i → s.getD j 0 &&& 128 ≠ 0 ∧ shift + 7 * (j + 1) < N) →
      (s.getD i 0 &&& 128 = 0 ∨ N ≤ shift + 7 * (i + 1)) →
      (read_leb128_loop N s result shift).2 = s.drop (i + 1) ∧
      ((read_leb128_loop N s result shift).1 = .error .invalidVarInt ↔
        s.getD i 0 &&& 128 ≠ 0) ∧
      (s.getD i 0 &&& 128 = 0 →
        ∃ res, (read_leb128_loop N s result shift).1 = .ok res) := by
  intro s
  induction s with
  | nil => intro i r sh hi; simp at hi
  | cons b rest ih =>
    intro i r sh hi hpre hstop
    cases i with
    | zero =>
      simp only [List.getD_cons_zero] at hstop ⊢
      rw [read_leb128_loop]
      by_cases hc : b &&& 128 = 0
      · simp [hc]
      · have hN : N ≤ sh + 7 := by
          rcases hstop with h | h
          · exact absurd h hc
          · omega
        simp only [ne_eq, hc, not_false_eq_true, if_true, if_neg (by omega : ¬ sh + 7 < N)]
        simp [hc]
    | succ i' =>
      have h0 := hpre 0 (Nat.succ_pos i')
      simp only [List.getD_cons_zero] at h0
      rw [read_leb128_loop]
      simp only [ne_eq, h0.1, not_false_eq_true, if_true,
        if_pos (by omega : sh + 7 < N)]
      have hpre' : ∀ j, j < i' → rest.getD j 0 &&& 128 ≠ 0 ∧ (sh + 7) + 7 * (j + 1) < N := by
        intro j hj
        have := hpre (j + 1) (by omega)
        simp only [List.getD_cons_succ] at this
        exact ⟨this.1, by omega⟩
      have hstop' : rest.getD i' 0 &&& 128 = 0 ∨ N ≤ (sh + 7) + 7 * (i' + 1) := by
        rcases hstop with h | h
        · left; simpa using h
        · right; omega
      have := ih i' (r ||| (((b &&& 127) <<< sh) % u64Mod)) (sh + 7) (by simpa using hi)
        hpre' hstop'
      simpa using this

/-- The LEB128 loop started at shift `sh < N` consumes at most
`(N - sh + 6) / 7` bytes. -/
lemma leb_loop_length (N : Nat) :
    ∀ (s : List Nat) (result shift : Nat), shift < N →
      s.length ≤ (read_leb128_loop N s result shift).2.length + (N - shift + 6) / 7 := by
  intro s
  induction s with
  | nil => intro r sh _; simp [read_leb128_loop]
  | cons b rest ih =>
    intro r sh hsh
    rw [read_leb128_loop]
    by_cases hc : b &&& 128 = 0
    · simp only [ne_eq, hc, not_true_eq_false, if_false, List.length_cons]
      omega
    · by_cases hlt : sh + 7 < N
      · have h := ih (r ||| (((b &&& 127) <<< sh) % u64Mod)) (sh + 7) hlt
        simp only [ne_eq, hc, not_false_eq_true, if_true, if_pos hlt, List.length_cons]
        omega
      · simp only [ne_eq, hc, not_false_eq_true, if_true, if_neg hlt, List.length_cons]
        omega

/-- C1: for every width `N` with `1 ≤ N ≤ 64`, the unsigned LEB128
decode stops at the first byte at which the continuation bit is clear or
the running shift has reached `N` (whichever comes first), and fails
with the invalid-varint error exactly when the continuation bit of that
byte is still set; a width-64 decode consumes at most 10 bytes,
succeeding on the valid 10-byte encoding of 17278784277645343305 and
failing on a sequence whose first 10 bytes all carry the continuation
bit. -/
theorem c1_leb128_termination :
    (∀ (N : Nat) (s : List Nat) (i : Nat), 1 ≤ N → N ≤ 64 → i < s.length →
      (∀ j, j < i → s.getD j 0 &&& 128 ≠ 0 ∧ 7 * (j + 1) < N) →
      (s.getD i 0 &&& 128 = 0 ∨ N ≤ 7 * (i + 1)) →
      (read_leb128_internal N s).2 = s.drop (i + 1) ∧
      ((read_leb128_internal N s).1 = .error .invalidVarInt ↔
        s.getD i 0 &&& 128 ≠ 0) ∧
      (s.getD i 0 &&& 128 = 0 →
        ∃ res, (read_leb128_internal N s).1 = .ok res)) ∧
    (∀ s : List Nat, s.length ≤ (read_leb128_internal 64 s).2.length + 10) ∧
    read_leb128_unsigned 64 [0xC9, 0xF4, 0x9E, 0xDD, 0x8E, 0xD8, 0xA4, 0xE5, 0xEF, 0x01]
      = (.ok 17278784277645343305, []) ∧
    read_leb128_unsigned 64 [0xC9, 0xF4, 0x9E, 0xDD, 0x8E, 0xD8, 0xA4, 0xE5, 0xEF, 0xEF, 0x01]
      = (.error .invalidVarInt, [0x01]) := by
  refine ⟨?_, ?_, rfl, rfl⟩
  · intro N s i _ _ hi hpre hstop
    exact leb_loop_stop N s i 0 0 hi (by simpa using hpre) (by simpa using hstop)
  · intro s
    have h := leb_loop_length 64 s 0 0 (by norm_num)
    simpa using h

/-- Witness for C1's general part at a concrete one-byte decode. -/
theorem c1_leb128_termination_witness :
    (read_leb128_internal 8 [34]).2 = [34].drop 1 ∧
    ((read_leb128_internal 8 [34]).1 = .error .invalidVarInt ↔
      [34].getD 0 0 &&& 128 ≠ 0) ∧
    ([34].getD 0 0 &&& 128 = 0 →
      ∃ res, (read_leb128_internal 8 [34]).1 = .ok res) :=
  c1_leb128_termination.1 8 [34] 0 (by norm_num) (by norm_num) (by norm_num)
    (fun j hj => absurd hj (by omega)) (by left; decide)

/-! Claims C3 and C10: invariants of a successful decode, the signed
sign extension, and the absence of high-bit validation. -/

/-- Invariants of a successful LEB128 loop run: the accumulator stays
below `2 ^ shift` and below `2 ^ 64`, and the final shift is the entry
shift plus 7 per consumed byte, bounded by `N + 7`. -/
lemma leb_loop_ok_inv (N : Nat) :
    ∀ (s s1 : List Nat) (result shift : Nat) (res : LEB128ReaderResult),
      result < 2 ^ shift → result < u64Mod → shift < N →
      read_leb128_loop N s result shift = (.ok res, s1) →
      res.result < 2 ^ res.shift ∧ res.result < u64Mod ∧
      shift + 7 ≤ res.shift ∧ res.shift < N + 7 ∧ res.shift % 7 = shift % 7 := by
  intro s
  induction s with
  | nil =>
    intro s1 r sh res _ _ _ h
    rw [read_leb128_loop] at h
    simp at h
  | cons b rest ih =>
    intro s1 r sh res hr hr64 hsh h
    simp only [read_leb128_loop] at h
    have hb127 : b &&& 127 < 128 := by rw [and_127_eq]; omega
    have hm1 : ((b &&& 127) <<< sh) % u64Mod < 2 ^ (sh + 7) := by
      calc ((b &&& 127) <<< sh) % u64Mod ≤ (b &&& 127) <<< sh := Nat.mod_le _ _
        _ = (b &&& 127) * 2 ^ sh := Nat.shiftLeft_eq _ _
        _ < 128 * 2 ^ sh :=
            (Nat.mul_lt_mul_right (Nat.pos_pow_of_pos sh (by norm_num))).mpr hb127
        _ = 2 ^ (sh + 7) := by rw [pow_add]; ring
    have hm2 : ((b &&& 127) <<< sh) % u64Mod < u64Mod :=
      Nat.mod_lt _ (by norm_num [u64Mod])
    have hres1 : r ||| (((b &&& 127) <<< sh) % u64Mod) < 2 ^ (sh + 7) :=
      Nat.or_lt_two_pow
        (lt_of_lt_of_le hr (Nat.pow_le_pow_right (by norm_num) (by omega))) hm1
    have hres2 : r ||| (((b &&& 127) <<< sh) % u64Mod) < u64Mod := by
      rw [u64Mod_eq] at hr64 hm2 ⊢
      exact Nat.or_lt_two_pow hr64 hm2
    split at h
    · split at h
      · obtain ⟨a1, a2, a3, a4, a5⟩ := ih s1 (r ||| (((b &&& 127) <<< sh) % u64Mod)) (sh + 7)
          res hres1 hres2 (by assumption) h
        exact ⟨a1, a2, by omega, a4, by omega⟩
      · simp at h
    · rw [Prod.mk.injEq] at h
      obtain ⟨hok, _⟩ := h
      rw [Except.ok.injEq] at hok
      cases hok
      exact ⟨hres1, hres2, Nat.le_refl _,
        by show sh + 7 < N + 7; omega, by show (sh + 7) % 7 = sh % 7; omega⟩

/-- C3: on every input on which the internal decode succeeds, the signed
decode returns the accumulator with all bits from the final shift upward
set (`result |= ~0u64 << shift`, which for `shift < 64` is the mask
`2^64 - 2^shift`) when `shift < 64` and bit 6 of the last byte is set,
and the accumulator unchanged otherwise; a width-8 signed decode whose
final byte has bit 6 set returns a negative number. -/
theorem c3_sign_extension :
    (∀ (N : Nat) (s s1 : List Nat) (res : LEB128ReaderResult),
      read_leb128_internal N s = (.ok res, s1) →
      read_leb128_signed N s =
        (.ok (toInt64 (if res.shift < 64 ∧ res.last_byte &&& 64 ≠ 0 then
            res.result ||| (((u64Mod - 1) <<< res.shift) % u64Mod)
          else res.result)), s1)) ∧
    (∀ k : Nat, k < 64 → ((u64Mod - 1) <<< k) % u64Mod = u64Mod - 2 ^ k) ∧
    (∀ (s s1 : List Nat) (res : LEB128ReaderResult),
      read_leb128_internal 8 s = (.ok res, s1) → res.last_byte &&& 64 ≠ 0 →
      ∃ x : Int, read_leb128_signed 8 s = (.ok x, s1) ∧ x < 0) := by
  refine ⟨?_, fun k hk => neg_mask_eq hk, ?_⟩
  · intro N s s1 res h
    rw [read_leb128_signed, h]
  · intro s s1 res h hsign
    have hinv := leb_loop_ok_inv 8 s s1 0 0 res (by norm_num) (by norm_num [u64Mod])
      (by norm_num) h
    obtain ⟨hlt, hlt64, hge, hub, -⟩ := hinv
    have hsh64 : res.shift < 64 := by omega
    refine ⟨toInt64 (res.result ||| (((u64Mod - 1) <<< res.shift) % u64Mod)), ?_, ?_⟩
    · rw [read_leb128_signed, h]
      dsimp only
      rw [if_pos (show res.shift < 64 ∧ res.last_byte &&& 64 ≠ 0 from ⟨hsh64, hsign⟩)]
    rw [neg_mask_eq hsh64]
    set r := res.result ||| (u64Mod - 2 ^ res.shift) with hrdef
    have hpow : (2:Nat) ^ res.shift ≤ 2 ^ 14 := Nat.pow_le_pow_right (by norm_num) (by omega)
    have hmaskbit : Nat.testBit (u64Mod - 2 ^ res.shift) 63 = true := by
      simp only [Nat.testBit_to_div_mod, decide_eq_true_eq]
      norm_num [u64Mod] at *
      omega
    have hrbit : Nat.testBit r 63 = true := by
      rw [hrdef, Nat.testBit_or, hmaskbit, Bool.or_true]
    have hr63 : 2 ^ 63 ≤ r := Nat.testBit_implies_ge hrbit
    have hr64 : r < u64Mod := by
      rw [u64Mod_eq]
      exact Nat.or_lt_two_pow (by rw [← u64Mod_eq]; exact hlt64) (by rw [u64Mod_eq] at *; omega)
    rw [toInt64, if_neg (by norm_num at hr63 ⊢; omega)]
    norm_num [u64Mod] at hr64 ⊢
    omega

/-- Witness for C3 at the one-byte input `[0x7F]` at width 8 (bit 6 of
the final byte set, decoded value -1). -/
theorem c3_sign_extension_witness :
    read_leb128_signed 8 [0x7F] =
      (.ok (toInt64 (if (7:Nat) < 64 ∧ (127:Nat) &&& 64 ≠ 0 then
          (127:Nat) ||| (((u64Mod - 1) <<< 7) % u64Mod)
        else 127)), []) ∧
    ∃ x : Int, read_leb128_signed 8 [0x7F] = (.ok x, []) ∧ x < 0 := by
  constructor
  · exact c3_sign_extension.1 8 [0x7F] [] ⟨127, 7, 127⟩ rfl
  · exact c3_sign_extension.2.2 [0x7F] [] ⟨127, 7, 127⟩ rfl (by decide)

/-- C10: the unsigned decoder does not validate the unused high bits of
the final byte: the two-byte input `[0xFF, 0x7F]` decodes successfully
at width 8 to 16383, which is not representable in 8 bits; in general a
successful width-N decode is bounded only by `2 ^ (7 * ceil(N / 7))`. -/
theorem c10_no_high_bit_validation :
    (read_leb128_unsigned 8 [0xFF, 0x7F] = (.ok 16383, []) ∧ 2 ^ 8 ≤ 16383) ∧
    (∀ (N : Nat) (s s1 : List Nat) (res : LEB128ReaderResult), 1 ≤ N →
      read_leb128_internal N s = (.ok res, s1) →
      res.result < 2 ^ (7 * ((N + 6) / 7))) := by
  refine ⟨⟨rfl, by norm_num⟩, ?_⟩
  intro N s s1 res hN h
  have hinv := leb_loop_ok_inv N s s1 0 0 res (by norm_num) (by norm_num [u64Mod])
    (by omega) h
  obtain ⟨hlt, -, -, hub, hmod⟩ := hinv
  have hshift : res.shift ≤ 7 * ((N + 6) / 7) := by omega
  exact lt_of_lt_of_le hlt (Nat.pow_le_pow_right (by norm_num) hshift)

/-- Witness for C10's general bound at a concrete one-byte decode. -/
theorem c10_no_high_bit_validation_witness :
    LEB128ReaderResult.result ⟨34, 7, 34⟩ < 2 ^ (7 * ((8 + 6) / 7)) :=
  c10_no_high_bit_validation.2 8 [34] [] ⟨34, 7, 34⟩ (by norm_num) rfl

/-! Claim C9: the multi-array builder records exact sub-array
boundaries. -/

/-- Folding `push` over a part appends it to the backing sequence and
leaves the offsets and the close cursor untouched. -/
lemma foldl_push_spec {T : Type} {N : Nat} :
    ∀ (part : List T) (b : MultiArrayBuilder T N),
      List.foldl MultiArrayBuilder.push b part =
        ⟨b.underlying ++ part, b.indices, b.current_index⟩ := by
  intro part
  induction part with
  | nil => intro b; simp
  | cons x xs ih =>
    intro b
    rw [List.foldl_cons, ih]
    simp [MultiArrayBuilder.push]

/-- Running the builder over a partition appends the concatenation of
the parts to the backing sequence, closes one sub-array per part, and
records as the offset of the `j`-th newly closed sub-array the backing
length right after its part was pushed. -/
lemma run_builder_spec {T : Type} {N : Nat} :
    ∀ (parts : List (List T)) (b : MultiArrayBuilder T N),
      b.indices.length = N → b.current_index + parts.length ≤ N →
      (run_builder b parts).underlying = b.underlying ++ parts.flatten ∧
      (run_builder b parts).current_index = b.current_index + parts.length ∧
      (run_builder b parts).indices.length = N ∧
      (∀ idx, idx < b.current_index →
        (run_builder b parts).indices.getD idx 0 = b.indices.getD idx 0) ∧
      (∀ j, j < parts.length →
        (run_builder b parts).indices.getD (b.current_index + j) 0 =
          (b.underlying.length + ((parts.take (j + 1)).flatten).length) % u32Mod) := by
  intro parts
  induction parts with
  | nil =>
    intro b h1 h2
    refine ⟨by simp [run_builder], by simp [run_builder], by simp [run_builder, h1],
      fun idx _ => by simp [run_builder], fun j hj => by simp at hj⟩
  | cons part parts ih =>
    intro b h1 h2
    rw [run_builder, foldl_push_spec]
    have hend : MultiArrayBuilder.end_sub_vec
        (⟨b.underlying ++ part, b.indices, b.current_index⟩ : MultiArrayBuilder T N) =
        ⟨b.underlying ++ part,
          b.indices.set b.current_index ((b.underlying ++ part).length % u32Mod),
          b.current_index + 1⟩ := rfl
    rw [hend]
    have hlt : b.current_index < N := by simp at h2; omega
    obtain ⟨ha, hb, hc, hd, he⟩ := ih
      ⟨b.underlying ++ part,
        b.indices.set b.current_index ((b.underlying ++ part).length % u32Mod),
        b.current_index + 1⟩
      (by simpa using h1) (by simp at h2 ⊢; omega)
    refine ⟨?_, ?_, ?_, ?_, ?_⟩
    · rw [ha]; simp
    · rw [hb]; simp; omega
    · exact hc
    · intro idx hidx
      rw [hd idx (by show idx < b.current_index + 1; omega)]
      simp only [List.getD_eq_getElem?_getD]
      rw [List.getElem?_set_ne (by omega)]
    · intro j hj
      cases j with
      | zero =>
        have h0 := hd b.current_index (by show b.current_index < b.current_index + 1; omega)
        rw [show b.current_index + 0 = b.current_index from rfl, h0]
        simp only [List.getD_eq_getElem?_getD]
        rw [List.getElem?_set_self (by omega)]
        simp only [Option.getD_some, List.take_succ_cons, List.take_zero, List.flatten_cons,
          List.flatten_nil, List.append_nil, List.length_append, u32Mod]
      | succ j' =>
        have := he j' (by simpa using hj)
        simp only at this
        rw [show b.current_index + (j' + 1) = b.current_index + 1 + j' by omega, this]
        simp only [List.take_succ_cons, List.flatten_cons, List.length_append, u32Mod]
        omega

/-- C9 counterexample: a single part of exactly `2^32` elements closed
once makes `end_sub_vec` store `2^32 % 2^32 = 0` in its `u32` offset
slot, so `sub_vec 0` of the built store is the empty view instead of
the pushed elements. -/
theorem c9_offset_truncation :
    (built_store Nat 1 [List.replicate u32Mod 0]).sub_vec 0 ≠ List.replicate u32Mod 0 := by
  have hempty : MultiArrayBuilder.empty Nat 1 = ⟨[], [0], 0⟩ := rfl
  have hb : built_store Nat 1 [List.replicate u32Mod 0] =
      SmallMultiArray.mk (List.replicate u32Mod 0) [0] := by
    rw [built_store, run_builder, hempty, foldl_push_spec, run_builder]
    rw [show ([] : List Nat) ++ List.replicate u32Mod 0 = List.replicate u32Mod 0 from
      List.nil_append _]
    rw [show MultiArrayBuilder.end_sub_vec (⟨List.replicate u32Mod 0, [0], 0⟩ :
        MultiArrayBuilder Nat 1) = ⟨List.replicate u32Mod 0,
        [(List.replicate u32Mod (0:Nat)).length % u32Mod], 1⟩ from by
      simp only [MultiArrayBuilder.end_sub_vec, List.set_cons_zero]]
    rw [List.length_replicate, Nat.mod_self]
    simp only [MultiArrayBuilder.build]
  have hsv : (built_store Nat 1 [List.replicate u32Mod 0]).sub_vec 0 = [] := by
    rw [hb, SmallMultiArray.sub_vec]
    dsimp only
    rw [if_pos rfl]
    have h0 : ([0] : List Nat).getD 0 0 = 0 := rfl
    have hmod0 : (0 + u32Mod - 0) % u32Mod = 0 := by
      rw [Nat.zero_add, Nat.sub_zero, Nat.mod_self]
    rw [h0, hmod0, List.take_zero]
  rw [hsv]
  intro h
  have hl := congrArg List.length h
  rw [List.length_nil, List.length_replicate] at hl
  norm_num [u32Mod] at hl

/-- C9 (amended): for every element type, arity `N` and pushes
partitioned by `k ≤ N` closes, provided the backing sequence stays
below `2^32` elements (so the `u32` end offsets do not truncate), the
built store's sub-array `i` (for `i < k`) equals exactly the elements
pushed between the `(i-1)`-th and `i`-th closes, in order; the recorded
end offset of sub-array `i` is the total length of the first `i + 1`
parts, so the recorded offsets are non-decreasing and sub-array `i`
spans `[offset[i-1], offset[i])` of the backing sequence. -/
theorem c9_multi_array_boundaries :
    ∀ (T : Type) (N : Nat) (parts : List (List T)) (i : Nat),
      parts.length ≤ N → i < parts.length → parts.flatten.length < u32Mod →
      (built_store T N parts).sub_vec i = parts.getD i [] ∧
      (built_store T N parts).indices.getD i 0 = ((parts.take (i + 1)).flatten).length ∧
      (∀ j k, j ≤ k → k < parts.length →
        (built_store T N parts).indices.getD j 0 ≤
          (built_store T N parts).indices.getD k 0) := by
  intro T N parts i hk hi hwrap
  obtain ⟨ha, -, -, -, he⟩ := run_builder_spec parts (MultiArrayBuilder.empty T N)
    (by simp [MultiArrayBuilder.empty]) (by simpa [MultiArrayBuilder.empty] using hk)
  have htake_le : ∀ j : Nat, ((parts.take (j + 1)).flatten).length ≤ parts.flatten.length := by
    intro j
    conv_rhs => rw [← List.take_append_drop (j + 1) parts]
    rw [List.flatten_append, List.length_append]
    omega
  have harr : (built_store T N parts).array = parts.flatten := by
    simpa [built_store, MultiArrayBuilder.build, MultiArrayBuilder.empty] using ha
  have hoff : ∀ j, j < parts.length →
      (built_store T N parts).indices.getD j 0 = ((parts.take (j + 1)).flatten).length := by
    intro j hj
    have h1 := he j hj
    have h2 : ((parts.take (j + 1)).flatten).length % u32Mod =
        ((parts.take (j + 1)).flatten).length :=
      Nat.mod_eq_of_lt (lt_of_le_of_lt (htake_le j) hwrap)
    simp only [MultiArrayBuilder.empty, List.length_nil, Nat.zero_add] at h1
    rw [h2] at h1
    simpa [built_store, MultiArrayBuilder.build, MultiArrayBuilder.empty] using h1
  have hmono : ∀ j k, j ≤ k → k < parts.length →
      (built_store T N parts).indices.getD j 0 ≤ (built_store T N parts).indices.getD k 0 := by
    intro j k hjk hkl
    rw [hoff j (by omega), hoff k hkl]
    have hsplit : parts.take (k + 1) =
        parts.take (j + 1) ++ (parts.take (k + 1)).drop (j + 1) := by
      conv_lhs => rw [← List.take_append_drop (j + 1) (parts.take (k + 1))]
      rw [List.take_take, Nat.min_eq_left (by omega)]
    rw [hsplit, List.flatten_append, List.length_append]
    omega
  refine ⟨?_, hoff i hi, hmono⟩
  have hdropfl : (parts.take i).flatten ++ (parts.drop i).flatten = parts.flatten := by
    rw [← List.flatten_append, List.take_append_drop]
  have hdi : parts.drop i = parts.getD i [] :: parts.drop (i + 1) := by
    rw [List.getD_eq_getElem?_getD, List.getElem?_eq_getElem hi]
    exact List.drop_eq_getElem_cons hi
  have hsucc : (parts.take (i + 1)).flatten = (parts.take i).flatten ++ parts.getD i [] := by
    rw [List.take_succ, List.getElem?_eq_getElem hi, List.flatten_append]
    simp [List.getD_eq_getElem?_getD, List.getElem?_eq_getElem hi]
  have hbegin : (if i = 0 then 0 else (built_store T N parts).indices.getD (i - 1) 0) =
      (parts.take i).flatten.length := by
    cases i with
    | zero => simp
    | succ i' =>
      rw [if_neg (by omega), show i' + 1 - 1 = i' from rfl]
      exact hoff i' (by omega)
  have hlen : (parts.take (i + 1)).flatten.length =
      (parts.take i).flatten.length + (parts.getD i []).length := by
    rw [hsucc, List.length_append]
  have hL : (parts.getD i []).length < u32Mod := by
    have h1 := htake_le i
    omega
  have hsub : ((parts.take i).flatten.length + (parts.getD i []).length + u32Mod -
      (parts.take i).flatten.length) % u32Mod = (parts.getD i []).length := by
    rw [show (parts.take i).flatten.length + (parts.getD i []).length + u32Mod -
        (parts.take i).flatten.length = (parts.getD i []).length + u32Mod by omega,
      Nat.add_mod_right]
    exact Nat.mod_eq_of_lt hL
  rw [SmallMultiArray.sub_vec]
  rw [hbegin, hoff i hi, hlen, hsub, harr, ← hdropfl,
    List.drop_left, hdi, List.flatten_cons]
  exact List.take_left _ _

/-- Witness for C9's amended theorem at a concrete two-part build. -/
theorem c9_multi_array_boundaries_witness :
    (built_store Nat 2 [[1, 2], [3]]).sub_vec 0 = [[1, 2], [3]].getD 0 [] ∧
    (built_store Nat 2 [[1, 2], [3]]).indices.getD 0 0 =
      (([[1, 2], [3]] : List (List Nat)).take 1).flatten.length ∧
    (∀ j k, j ≤ k → k < ([[1, 2], [3]] : List (List Nat)).length →
      (built_store Nat 2 [[1, 2], [3]]).indices.getD j 0 ≤
        (built_store Nat 2 [[1, 2], [3]]).indices.getD k 0) :=
  c9_multi_array_boundaries Nat 2 [[1, 2], [3]] 0 (by norm_num) (by norm_num) (by decide)

/-! Claim C7: function-type decoding (with the spec-modelled body). -/

/-- C7: decoding `[0x60, param-count 2, i32-tag, i64-tag, result-count 1,
f32-tag]` yields a FunctionType with parameter list `[i32, i64]` and
result list `[f32]`; for every input whose first byte is not 0x60,
`read_function_ty` fails with the unexpected-byte error. -/
theorem c7_function_type :
    (∃ ft : FunctionType,
      read_function_ty [0x60, 2, 0x7F, 0x7E, 1, 0x7D] = (.ok ft, []) ∧
      ft.param_tys = [.i32, .i64] ∧ ft.result_tys = [.f32]) ∧
    (∀ (b : Nat) (rest : List Nat), b ≠ 0x60 →
      read_function_ty (b :: rest) = (.error (.unexpectedByte 0x60 b), rest)) := by
  constructor
  · exact ⟨⟨⟨[.i32, .i64, .f32], [2, 3]⟩⟩, rfl, rfl, rfl⟩
  · intro b rest hb
    rw [read_function_ty, expect]
    simp [consume, hb]

/-- Witness for C7's marker check at a concrete non-0x60 first byte. -/
theorem c7_function_type_witness :
    read_function_ty [0x61] = (.error (.unexpectedByte 0x60 0x61), []) :=
  c7_function_type.2 0x61 [] (by norm_num)

/-! Claim C2: round trips through the spec-modelled encoders. -/

lemma leb_encode_unsigned_loop (N : Nat) (hN : N ≤ 64) :
    ∀ (v acc sh : Nat) (rest : List Nat),
      acc < 2 ^ sh → sh < N → v * 2 ^ sh < 2 ^ N →
      ∃ res, read_leb128_loop N (leb128_encode_unsigned v ++ rest) acc sh = (.ok res, rest) ∧
        res.result = acc + v * 2 ^ sh := by
  intro v
  induction v using Nat.strong_induction_on with
  | _ v ih =>
    intro acc sh rest hacc hsh hv
    rw [leb128_encode_unsigned]
    by_cases h128 : v < 128
    · rw [if_pos h128, List.cons_append, List.nil_append, read_leb128_loop]
      have hcont : v &&& 128 = 0 := by rw [and_128_eq]; omega
      have h127 : v &&& 127 = v := by rw [and_127_eq]; omega
      have hshl : ((v &&& 127) <<< sh) % u64Mod = v * 2 ^ sh := by
        rw [h127, Nat.shiftLeft_eq, u64Mod_eq]
        exact Nat.mod_eq_of_lt (lt_of_lt_of_le hv (Nat.pow_le_pow_right (by norm_num) hN))
      simp only [ne_eq, hcont, not_true_eq_false, if_false]
      refine ⟨_, rfl, ?_⟩
      dsimp only
      rw [hshl]
      exact or_mul_two_pow v hacc
    · rw [if_neg h128, List.cons_append, read_leb128_loop]
      have hcont : (v % 128 + 128) &&& 128 = 128 := by rw [and_128_eq]; omega
      have hcond : (v % 128 + 128) &&& 128 ≠ 0 := by rw [hcont]; norm_num
      have h127 : (v % 128 + 128) &&& 127 = v % 128 := by rw [and_127_eq]; omega
      have hpow7 : (2:Nat) ^ (sh + 7) = 2 ^ sh * 128 := by rw [pow_add]; norm_num
      have hsh7 : sh + 7 < N := by
        have h1 : (2:Nat) ^ (sh + 7) ≤ v * 2 ^ sh := by
          rw [hpow7]
          calc (2:Nat) ^ sh * 128 = 128 * 2 ^ sh := by ring
            _ ≤ v * 2 ^ sh := Nat.mul_le_mul_right _ (by omega)
        exact (Nat.pow_lt_pow_iff_right (by norm_num)).mp (lt_of_le_of_lt h1 hv)
      have hshl : (((v % 128 + 128) &&& 127) <<< sh) % u64Mod = v % 128 * 2 ^ sh := by
        rw [h127, Nat.shiftLeft_eq, u64Mod_eq]
        refine Nat.mod_eq_of_lt (lt_of_lt_of_le ?_ (Nat.pow_le_pow_right (by norm_num) (by omega : sh + 7 ≤ 64)))
        rw [hpow7]
        calc v % 128 * 2 ^ sh < 128 * 2 ^ sh :=
              (Nat.mul_lt_mul_right (Nat.pos_pow_of_pos sh (by norm_num))).mpr (by omega)
          _ = 2 ^ sh * 128 := by ring
      have hacclt : acc + v % 128 * 2 ^ sh < 2 ^ (sh + 7) := by
        rw [hpow7]
        calc acc + v % 128 * 2 ^ sh < 2 ^ sh + 127 * 2 ^ sh :=
              Nat.add_lt_add_of_lt_of_le hacc (Nat.mul_le_mul_right _ (by omega))
          _ = 2 ^ sh * 128 := by ring
      have hvd : v / 128 * 2 ^ (sh + 7) < 2 ^ N := by
        rw [hpow7]
        calc v / 128 * (2 ^ sh * 128) = v / 128 * 128 * 2 ^ sh := by ring
          _ ≤ v * 2 ^ sh := Nat.mul_le_mul_right _ (Nat.div_mul_le_self v 128)
          _ < 2 ^ N := hv
      simp only [ne_eq, hcond, not_false_eq_true, if_true, if_pos hsh7]
      have haccrw : acc ||| (((v % 128 + 128) &&& 127) <<< sh) % u64Mod =
          acc + v % 128 * 2 ^ sh := by
        rw [hshl]
        exact or_mul_two_pow _ hacc
      rw [haccrw]
      obtain ⟨res, hres, hresval⟩ := ih (v / 128) (by omega) (acc + v % 128 * 2 ^ sh)
        (sh + 7) rest hacclt hsh7 hvd
      refine ⟨res, hres, ?_⟩
      rw [hresval, hpow7]
      conv_rhs => rw [← Nat.div_add_mod v 128]
      ring

/-- The signed LEB128 loop, run on the spec-modelled signed encoding of
`v` (in range for width `N`) followed by `rest`, succeeds consuming
exactly the encoding, and the signed post-processing of its result
recovers `acc + v * 2 ^ sh`. -/
lemma leb_encode_signed_loop (N : Nat) (hN : N ≤ 64) :
    ∀ (n : Nat) (v : Int), v.natAbs = n →
    ∀ (acc sh : Nat) (rest : List Nat),
      acc < 2 ^ sh → sh < N → sh % 7 = 0 →
      -(2 ^ (N - 1) : Int) ≤ v * 2 ^ sh → (v * 2 ^ sh : Int) < 2 ^ (N - 1) →
      ∃ res, read_leb128_loop N (leb128_encode_signed v ++ rest) acc sh = (.ok res, rest) ∧
        toInt64 (if res.shift < 64 ∧ res.last_byte &&& 64 ≠ 0 then
            res.result ||| (((u64Mod - 1) <<< res.shift) % u64Mod)
          else res.result) = (acc : Int) + v * 2 ^ sh := by
  intro n
  induction n using Nat.strong_induction_on with
  | _ n ih =>
    intro v hvn acc sh rest hacc hsh hshm hlo hhi
    rw [leb128_encode_signed]
    set b : Nat := (v % 128).toNat with hbdef
    have hb0 : (0:Int) ≤ v % 128 := Int.emod_nonneg v (by norm_num)
    have hblt : (v % 128 : Int) < 128 := Int.emod_lt_of_pos v (by norm_num)
    have hbv : (b : Int) = v % 128 := Int.toNat_of_nonneg hb0
    have hqb : 128 * (v / 128) + (b : Int) = v := by rw [hbv]; exact Int.ediv_add_emod v 128
    have hbyte : b < 128 := by omega
    have hshN1 : sh ≤ N - 1 := by omega
    by_cases hstop : (v / 128 = 0 ∧ b < 64) ∨ (v / 128 = -1 ∧ 64 ≤ b)
    · rw [if_pos hstop, List.cons_append, List.nil_append, read_leb128_loop]
      have hcont : b &&& 128 = 0 := by rw [and_128_eq]; omega
      have h127 : b &&& 127 = b := by rw [and_127_eq]; omega
      simp only [ne_eq, hcont, not_true_eq_false, if_false]
      refine ⟨_, rfl, ?_⟩
      dsimp only
      rcases hstop with ⟨hq, hblt64⟩ | ⟨hq, hbge64⟩
      · -- v = b, 0 ≤ v < 64 : no sign extension
        have hv : (v : Int) = (b : Int) := by omega
        have hsign : b &&& 64 = 0 := by rw [and_64_eq]; omega
        rw [if_neg (by simp [hsign])]
        rw [h127, Nat.shiftLeft_eq]
        have hblt2 : (b : Int) < 2 ^ (N - 1 - sh) := by
          have hsplit : (2:Int) ^ (N - 1) = 2 ^ (N - 1 - sh) * 2 ^ sh := by
            rw [← pow_add]
            congr 1
            omega
          rw [hv, hsplit] at hhi
          have hpos : (0:Int) < 2 ^ sh := by positivity
          exact lt_of_mul_lt_mul_right hhi (le_of_lt hpos)
        have hbn2 : b < 2 ^ (N - 1 - sh) := by exact_mod_cast hblt2
        have htot : acc + b * 2 ^ sh < 2 ^ (N - 1) := by
          calc acc + b * 2 ^ sh < 2 ^ sh + b * 2 ^ sh := by omega
            _ = (b + 1) * 2 ^ sh := by ring
            _ ≤ 2 ^ (N - 1 - sh) * 2 ^ sh := Nat.mul_le_mul_right _ (by omega)
            _ = 2 ^ (N - 1) := by rw [← pow_add]; congr 1; omega
        have h63 : (2:Nat) ^ (N - 1) ≤ 2 ^ 63 := Nat.pow_le_pow_right (by norm_num) (by omega)
        have hmod : b * 2 ^ sh % u64Mod = b * 2 ^ sh := by
          rw [u64Mod_eq]
          refine Nat.mod_eq_of_lt ?_
          calc b * 2 ^ sh ≤ acc + b * 2 ^ sh := by omega
            _ < 2 ^ 63 := lt_of_lt_of_le htot h63
            _ ≤ 2 ^ 64 := by norm_num
        rw [hmod, or_mul_two_pow b hacc, toInt64]
        rw [if_pos (by have := lt_of_lt_of_le htot h63; norm_num at this ⊢; omega)]
        push_cast
        rw [hv]
      · -- v = b - 128 ∈ [-64, -1] : sign extension (or 10th-byte wrap)
        have hv : (v : Int) = (b : Int) - 128 := by omega
        have hsign : b &&& 64 = 64 := by rw [and_64_eq]; omega
        by_cases hsh56 : sh + 7 < 64
        · rw [if_pos (show sh + 7 < 64 ∧ b &&& 64 ≠ 0 from ⟨hsh56, by rw [hsign]; norm_num⟩)]
          rw [h127, Nat.shiftLeft_eq]
          have hb2sh : b * 2 ^ sh < 2 ^ (sh + 7) := by
            calc b * 2 ^ sh < 128 * 2 ^ sh :=
                  (Nat.mul_lt_mul_right (Nat.pos_pow_of_pos sh (by norm_num))).mpr hbyte
              _ = 2 ^ (sh + 7) := by rw [pow_add]; ring
          have hsh64 : (2:Nat) ^ (sh + 7) ≤ 2 ^ 64 := Nat.pow_le_pow_right (by norm_num) (by omega)
          have hmod : b * 2 ^ sh % u64Mod = b * 2 ^ sh := by
            rw [u64Mod_eq]
            exact Nat.mod_eq_of_lt (lt_of_lt_of_le hb2sh hsh64)
          rw [hmod, or_mul_two_pow b hacc]
          have hA : acc + b * 2 ^ sh < 2 ^ (sh + 7) := by
            have hble : b * 2 ^ sh ≤ 127 * 2 ^ sh := Nat.mul_le_mul_right _ (by omega)
            have h128 : (128:Nat) * 2 ^ sh = 2 ^ (sh + 7) := by rw [pow_add]; ring
            have hs : (2:Nat) ^ sh + 127 * 2 ^ sh = 128 * 2 ^ sh := by ring
            omega
          rw [neg_mask_eq hsh56]
          have hmk : 64 - (sh + 7) + (sh + 7) = 64 := by omega
          have hmaskmul : u64Mod - 2 ^ (sh + 7) = (2 ^ (64 - (sh + 7)) - 1) * 2 ^ (sh + 7) := by
            rw [u64Mod_eq, Nat.sub_mul, one_mul, ← pow_add, hmk]
          rw [hmaskmul, or_mul_two_pow _ hA, ← hmaskmul]
          rw [toInt64]
          have hge : 2 ^ 63 ≤ acc + b * 2 ^ sh + (u64Mod - 2 ^ (sh + 7)) := by
            have h1 : (2:Nat) ^ (sh + 7) ≤ 2 ^ 63 := Nat.pow_le_pow_right (by norm_num) (by omega)
            have h2 : (2:Nat) ^ 64 = 2 ^ 63 + 2 ^ 63 := by norm_num
            rw [u64Mod_eq]
            omega
          rw [if_neg (by norm_num at hge ⊢; omega)]
          have hle : (2:Nat) ^ (sh + 7) ≤ u64Mod := by rw [u64Mod_eq]; exact hsh64
          have hcast : ((acc + b * 2 ^ sh + (u64Mod - 2 ^ (sh + 7)) : Nat) : Int) =
              (acc : Int) + (b : Int) * 2 ^ sh + 2 ^ 64 - 2 ^ (sh + 7) := by
            push_cast [Nat.cast_sub hle]
            rw [u64Mod_eq]
            push_cast
            ring
          rw [hcast, hv]
          have h7 : (2:Int) ^ (sh + 7) = 2 ^ sh * 128 := by rw [pow_add]; norm_num
          have h64 : (18446744073709551616:Int) = 2 ^ 64 := by norm_num
          rw [h7, h64]
          ring
        · have hsh63 : sh = 63 := by omega
          subst hsh63
          have hN64 : N = 64 := by omega
          rw [hN64] at hlo hhi
          norm_num at hlo hhi
          have hvle : v ≤ -1 := by omega
          have hvge : -1 ≤ v := by
            by_contra hlt
            push_neg at hlt
            have h2 : v * 2 ^ 63 ≤ -2 * 2 ^ 63 :=
              mul_le_mul_of_nonneg_right (by omega) (by positivity)
            norm_num at h2
            omega
          have hvm1 : v = -1 := le_antisymm hvle hvge
          have hb127 : b = 127 := by omega
          rw [if_neg (by omega)]
          rw [hb127]
          have hX : ((127 &&& 127) <<< 63) % u64Mod = 2 ^ 63 := by decide
          have hor : acc ||| 2 ^ 63 = acc + 2 ^ 63 := by
            have h1 := or_mul_two_pow (a := acc) (k := 63) 1 hacc
            simpa using h1
          rw [hX, hor, toInt64]
          rw [if_neg (by norm_num)]
          rw [hvm1]
          push_cast
          omega
    · rw [if_neg hstop, List.cons_append, read_leb128_loop]
      have hvbig : 64 ≤ v ∨ v ≤ -65 := by omega
      have hcont : (b + 128) &&& 128 = 128 := by rw [and_128_eq]; omega
      have hcond : (b + 128) &&& 128 ≠ 0 := by rw [hcont]; norm_num
      have h127 : (b + 128) &&& 127 = b := by rw [and_127_eq]; omega
      have hpos : (0:Int) < 2 ^ sh := by positivity
      have hsh7 : sh + 7 < N := by
        have hkey : (2:Int) ^ (sh + 6) < 2 ^ (N - 1) := by
          rcases hvbig with h | h
          · have h1 : (64:Int) * 2 ^ sh ≤ v * 2 ^ sh :=
              mul_le_mul_of_nonneg_right (by omega) (le_of_lt hpos)
            calc (2:Int) ^ (sh + 6) = 64 * 2 ^ sh := by rw [pow_add]; norm_num; ring
              _ ≤ v * 2 ^ sh := h1
              _ < 2 ^ (N - 1) := hhi
          · have h1 : v * 2 ^ sh ≤ (-65) * 2 ^ sh :=
              mul_le_mul_of_nonneg_right (by omega) (le_of_lt hpos)
            have h2 : (65:Int) * 2 ^ sh ≤ 2 ^ (N - 1) := by linarith
            calc (2:Int) ^ (sh + 6) = 64 * 2 ^ sh := by rw [pow_add]; norm_num; ring
              _ < 65 * 2 ^ sh := by linarith
              _ ≤ 2 ^ (N - 1) := h2
        have h3 : (2:Nat) ^ (sh + 6) < 2 ^ (N - 1) := by exact_mod_cast (by push_cast; exact hkey :
          ((2:Nat) ^ (sh + 6) : Int) < ((2:Nat) ^ (N - 1) : Int))
        have h4 : sh + 6 < N - 1 := (Nat.pow_lt_pow_iff_right (by norm_num)).mp h3
        omega
      simp only [ne_eq, hcond, not_false_eq_true, if_true, if_pos hsh7]
      have hb2sh : b * 2 ^ sh < 2 ^ (sh + 7) := by
        calc b * 2 ^ sh < 128 * 2 ^ sh :=
              (Nat.mul_lt_mul_right (Nat.pos_pow_of_pos sh (by norm_num))).mpr hbyte
          _ = 2 ^ (sh + 7) := by rw [pow_add]; ring
      have hmod : (((b + 128) &&& 127) <<< sh) % u64Mod = b * 2 ^ sh := by
        rw [h127, Nat.shiftLeft_eq, u64Mod_eq]
        exact Nat.mod_eq_of_lt
          (lt_of_lt_of_le hb2sh (Nat.pow_le_pow_right (by norm_num) (by omega)))
      have haccrw : acc ||| ((((b + 128) &&& 127) <<< sh) % u64Mod) = acc + b * 2 ^ sh := by
        rw [hmod]
        exact or_mul_two_pow b hacc
      rw [haccrw]
      have hacc' : acc + b * 2 ^ sh < 2 ^ (sh + 7) := by
        have hble : b * 2 ^ sh ≤ 127 * 2 ^ sh := Nat.mul_le_mul_right _ (by omega)
        have h128 : (128:Nat) * 2 ^ sh = 2 ^ (sh + 7) := by rw [pow_add]; ring
        have hs : (2:Nat) ^ sh + 127 * 2 ^ sh = 128 * 2 ^ sh := by ring
        omega
      have h7i : (2:Int) ^ (sh + 7) = 2 ^ sh * 128 := by rw [pow_add]; norm_num
      have h128q : (128:Int) * (v / 128) = v - (b : Int) := by omega
      have hq_up : (v / 128) * (2:Int) ^ (sh + 7) < 2 ^ (N - 1) := by
        have heq : (v / 128) * (2:Int) ^ (sh + 7) = (v - (b : Int)) * 2 ^ sh := by
          rw [h7i, ← h128q]
          ring
        rw [heq]
        calc (v - (b : Int)) * 2 ^ sh ≤ v * 2 ^ sh :=
              mul_le_mul_of_nonneg_right (by omega) (le_of_lt hpos)
          _ < 2 ^ (N - 1) := hhi
      have hq_lo : -((2:Int) ^ (N - 1)) ≤ (v / 128) * 2 ^ (sh + 7) := by
        have hvlow : -((2:Int) ^ (N - 1 - sh)) ≤ v := by
          have hsplit : (2:Int) ^ (N - 1) = 2 ^ (N - 1 - sh) * 2 ^ sh := by
            rw [← pow_add]
            congr 1
            omega
          rw [hsplit] at hlo
          have hlo2 : -((2:Int) ^ (N - 1 - sh)) * 2 ^ sh ≤ v * 2 ^ sh := by linarith
          exact le_of_mul_le_mul_right hlo2 hpos
        have hsplit2 : (2:Int) ^ (N - 1 - sh) = 128 * 2 ^ (N - 1 - sh - 7) := by
          rw [show (128:Int) = 2 ^ 7 by norm_num, ← pow_add]
          congr 1
          omega
        have hqlow : -((2:Int) ^ (N - 1 - sh - 7)) ≤ v / 128 := by
          have hdivle : (-((2:Int) ^ (N - 1 - sh))) / 128 ≤ v / 128 :=
            Int.ediv_le_ediv (by norm_num) hvlow
          have hdiv : (-((2:Int) ^ (N - 1 - sh))) / 128 = -(2 ^ (N - 1 - sh - 7)) := by
            rw [hsplit2, show -(128 * (2:Int) ^ (N - 1 - sh - 7)) =
              128 * -(2 ^ (N - 1 - sh - 7)) by ring]
            exact Int.mul_ediv_cancel_left _ (by norm_num)
          rw [hdiv] at hdivle
          exact hdivle
        have hstep : -((2:Int) ^ (N - 1 - sh - 7)) * 2 ^ (sh + 7) ≤ (v / 128) * 2 ^ (sh + 7) :=
          mul_le_mul_of_nonneg_right hqlow (by positivity)
        have hmerge : -((2:Int) ^ (N - 1 - sh - 7)) * 2 ^ (sh + 7) = -(2 ^ (N - 1)) := by
          rw [neg_mul, ← pow_add]
          congr 2
          omega
        rw [hmerge] at hstep
        exact hstep
      obtain ⟨res, hres, hresval⟩ := ih (v / 128).natAbs (by omega) (v / 128) rfl
        (acc + b * 2 ^ sh) (sh + 7) rest hacc' hsh7 (by omega) hq_lo hq_up
      refine ⟨res, hres, ?_⟩
      rw [hresval]
      push_cast
      rw [h7i]
      linear_combination (2:Int) ^ sh * hqb

/-- C2: for every width `N` with `1 ≤ N ≤ 64`, decoding the LEB128
encoding of an unsigned value representable in `N` bits returns exactly
that value, and the signed decode at width `N` of the signed LEB128
encoding of a value in the `N`-bit two's-complement range returns
exactly that value. -/
theorem c2_leb128_round_trip :
    (∀ (N : Nat) (v : Nat), 1 ≤ N → N ≤ 64 → v < 2 ^ N →
      read_leb128_unsigned N (leb128_encode_unsigned v) = (.ok v, [])) ∧
    (∀ (N : Nat) (v : Int), 1 ≤ N → N ≤ 64 →
      -(2 ^ (N - 1) : Int) ≤ v → v < 2 ^ (N - 1) →
      read_leb128_signed N (leb128_encode_signed v) = (.ok v, [])) := by
  constructor
  · intro N v hN1 hN64 hv
    obtain ⟨res, hres, hresval⟩ := leb_encode_unsigned_loop N hN64 v 0 0 []
      (by norm_num) (by omega) (by simpa using hv)
    rw [List.append_nil] at hres
    rw [read_leb128_unsigned, read_leb128_internal, hres]
    dsimp only
    rw [show res.result = v by simpa using hresval]
  · intro N v hN1 hN64 hlo hhi
    obtain ⟨res, hres, hresval⟩ := leb_encode_signed_loop N hN64 v.natAbs v rfl 0 0 []
      (by norm_num) (by omega) (by norm_num) (by simpa using hlo) (by simpa using hhi)
    rw [List.append_nil] at hres
    rw [read_leb128_signed, read_leb128_internal, hres]
    dsimp only
    have hval : toInt64 (if res.shift < 64 ∧ res.last_byte &&& 64 ≠ 0 then
        res.result ||| (((u64Mod - 1) <<< res.shift) % u64Mod)
      else res.result) = v := by
      rw [hresval]
      push_cast
      ring
    rw [hval]

/-- Witness for C2 at width 8 with values 34 and -100. -/
theorem c2_leb128_round_trip_witness :
    read_leb128_unsigned 8 (leb128_encode_unsigned 34) = (.ok 34, []) ∧
    read_leb128_signed 8 (leb128_encode_signed (-100)) = (.ok (-100), []) :=
  ⟨c2_leb128_round_trip.1 8 34 (by norm_num) (by norm_num) (by norm_num),
   c2_leb128_round_trip.2 8 (-100) (by norm_num) (by norm_num) (by norm_num) (by norm_num)⟩

end Cobalt
